import Mathlib

/-!
Shallow embedding of the arena allocator from arena.h / prick_arena.h.

Modelling choices:
* A region is a record of its two uint32 fields and its byte buffer.  The
  byte buffer is modelled as a total function from offsets to byte values;
  offsets at or beyond the capacity exist in the model but belong to no
  allocation (the C code can in fact write there, see arena_realloc).
* The singly linked chain of regions is modelled as a list, head = beg.
  The arena's end pointer is modelled as an index into that list.
* Pointers returned to callers are (region index, byte offset) pairs.
  Address comparisons between distinct heap blocks are modelled by
  provenance: a pointer lies inside a region's address range exactly when
  its region index matches (malloc blocks are disjoint).
* uint32 arithmetic is explicit: every store into a uint32 field reduces
  modulo 2^32, and the C expression a - b on uint32 is u32sub.
-/

namespace Prick

def U32 : Nat := 2 ^ 32

/-- uint32 subtraction a - b with wrap-around. -/
def u32sub (a b : Nat) : Nat := (a % U32 + (U32 - b % U32)) % U32

def REGION_DEFAULT_SIZE : Nat := 512

def REGION_CAPACITY_MULT : Nat := 2

/-- One node of the region chain: the uint32 fields size and capacity and
the flexible byte array, modelled as a total function on offsets. -/
structure Region where
  size : Nat
  capacity : Nat
  bytes : Nat → Nat

/-- A pointer into the arena: index of the region it was allocated in and
byte offset from that region's bytes array. -/
structure Ptr where
  rIdx : Nat
  off : Nat
deriving DecidableEq

/-- region_make: capacity is clamped up to REGION_DEFAULT_SIZE; calloc
zero-initialises the byte storage; size starts at 0.  The next link is
implicit in the list embedding. -/
def region_make (capacity : Nat) : Region :=
  { size := 0
    capacity := max (capacity % U32) REGION_DEFAULT_SIZE
    bytes := fun _ => 0 }

/-- region_alloc_rec: walk the chain for the first region whose remaining
capacity (uint32 subtraction capacity - size) fits the request, stopping at
the tail; if the tail does not fit, append a fresh region of capacity
request * REGION_CAPACITY_MULT (uint32 product) and allocate there.
Returns the updated chain, the chosen region's index and the offset of the
new span; none only on the empty chain (the NULL region argument). -/
def region_alloc_rec : List Region → Nat → Option (List Region × Nat × Nat)
  | [], _ => none
  | r :: rest, s =>
    if s ≤ u32sub r.capacity r.size then
      some (({ r with size := (r.size + s) % U32 }) :: rest, 0, r.size)
    else
      match rest with
      | [] =>
        some ([r, { region_make ((s * REGION_CAPACITY_MULT) % U32) with size := s % U32 }],
          1, 0)
      | r2 :: rest2 =>
        match region_alloc_rec (r2 :: rest2) s with
        | some (rs, i, off) => some (r :: rs, i + 1, off)
        | none => none

/-- arena_t: the head of the region chain (empty list = beg is NULL) and
the cached index of the end region (none = end is NULL). -/
structure Arena where
  regions : List Region
  endIdx : Option Nat

def emptyArena : Arena := ⟨[], none⟩

/-- The end-of-chain cache update of arena_alloc: when the region end
points at has gained a successor, follow that one link. -/
def endAdvance (e : Option Nat) (n : Nat) : Option Nat :=
  match e with
  | none => none
  | some i => if i + 1 < n then some (i + 1) else some i

/-- arena_alloc: create the first region when beg is NULL, delegate to
region_alloc_rec, and advance end by one link when the cached end region
has gained a successor. -/
def arena_alloc (a : Arena) (size : Nat) : Arena × Option Ptr :=
  let s := size % U32
  let rs0 := match a.regions with
    | [] => [region_make s]
    | rs => rs
  let e0 := match a.regions with
    | [] => some 0
    | _ => a.endIdx
  match region_alloc_rec rs0 s with
  | none => (⟨rs0, e0⟩, none)
  | some (rs1, idx, off) => (⟨rs1, endAdvance e0 rs1.length⟩, some ⟨idx, off⟩)

/-- Replace the region at index i by f applied to it; no-op out of range. -/
def updRegion (rs : List Region) (i : Nat) (f : Region → Region) : List Region :=
  match rs[i]? with
  | some r => rs.set i (f r)
  | none => rs

/-- Read the byte a pointer refers to (0 outside any region). -/
def readByte (a : Arena) (p : Ptr) : Nat :=
  match a.regions[p.rIdx]? with
  | some r => r.bytes p.off
  | none => 0

/-- memcpy of n bytes inside the arena, destination first.  The source
bytes are read from the state before the copy, which agrees with the C
call exactly when the two ranges do not overlap — on overlapping ranges C
memcpy has undefined behaviour, so theorems that assert the copied
contents carry a disjointness hypothesis.  Writes land in the destination
region's index space; aliasing between separately allocated region blocks
(a store past one block reaching another) is heap layout and out of
scope. -/
def memcpyA (a : Arena) (dst src : Ptr) (n : Nat) : Arena :=
  { a with
    regions := updRegion a.regions dst.rIdx (fun r =>
      { r with bytes := fun o =>
          if dst.off ≤ o ∧ o < dst.off + n then
            readByte a ⟨src.rIdx, src.off + (o - dst.off)⟩
          else r.bytes o }) }

/-- A caller store of one byte through a returned pointer (environment
action, not part of the allocator itself). -/
def writeByte (a : Arena) (p : Ptr) (v : Nat) : Arena :=
  { a with
    regions := updRegion a.regions p.rIdx (fun r =>
      { r with bytes := fun o => if o = p.off then v % 256 else r.bytes o }) }

/-- Consecutive caller stores starting at a pointer. -/
def writeBytes : Arena → Ptr → List Nat → Arena
  | a, _, [] => a
  | a, p, v :: vs => writeBytes (writeByte a p v) ⟨p.rIdx, p.off + 1⟩ vs

/-- The arena_realloc fallback label: allocate new_size fresh bytes and
memcpy old_size bytes from the old pointer into them. -/
def reallocFallback (a : Arena) (p : Ptr) (old nsz : Nat) : Arena × Option Ptr :=
  match arena_alloc a nsz with
  | (a1, some q) => (memcpyA a1 q p old, some q)
  | (a1, none) => (a1, none)

/-- arena_realloc: NULL pointer behaves as arena_alloc; otherwise find the
region whose used range [bytes, bytes+size) contains the old span (by
provenance this can only be the pointer's own region); take the in-place
fast path when the span ends exactly at the cursor and remaining capacity
strictly exceeds the uint32 difference new_size - old_size; otherwise fall
back to allocate-and-copy. -/
def arena_realloc (a : Arena) (pointer : Option Ptr) (old_size new_size : Nat) :
    Arena × Option Ptr :=
  let old := old_size % U32
  let nsz := new_size % U32
  match pointer with
  | none => arena_alloc a nsz
  | some p =>
    match a.regions[p.rIdx]? with
    | some r =>
      if p.off + old ≤ r.size then
        if p.off + old = r.size ∧ u32sub nsz old < u32sub r.capacity r.size then
          (⟨updRegion a.regions p.rIdx
              (fun rr => { rr with size := (rr.size + u32sub nsz old) % U32 }),
            a.endIdx⟩, some p)
        else reallocFallback a p old nsz
      else reallocFallback a p old nsz
    | none => reallocFallback a p old nsz

/-- arena_reset on one region: size back to 0 and memset of the capacity
many stored bytes to 0. -/
def resetRegion (r : Region) : Region :=
  { r with size := 0, bytes := fun o => if o < r.capacity then 0 else r.bytes o }

/-- arena_reset: reset every region in the chain; the chain itself and the
end cache are untouched. -/
def arena_reset (a : Arena) : Arena := ⟨a.regions.map resetRegion, a.endIdx⟩

/-- arena_free: delete every region and memset the arena handle to zero. -/
def arena_free (_ : Arena) : Arena := ⟨[], none⟩

/-- The allocator operations a caller can interleave (for frame facts). -/
inductive Op
  | alloc (s : Nat)
  | realloc (p : Option Ptr) (old nsz : Nat)

def applyOp (a : Arena) : Op → Arena
  | .alloc s => (arena_alloc a s).1
  | .realloc p old nsz => (arena_realloc a p old nsz).1

/-- A whole sequence of allocator calls, applied left to right. -/
def applyOps (a : Arena) (ops : List Op) : Arena :=
  ops.foldl applyOp a

/-- The requested size of an operation stays below 2^31, so the uint32
capacity product cannot wrap (the bound of the C4 correction). -/
def opBound : Op → Prop
  | .alloc s => s < 2 ^ 31
  | .realloc _ _ nsz => nsz < 2 ^ 31

/-- A region whose uint32 fields are consistent: the used size never
exceeds the capacity and the capacity fits in 32 bits. -/
def RegionWF (r : Region) : Prop := r.size ≤ r.capacity ∧ r.capacity < U32

def ArenaWF (a : Arena) : Prop := ∀ r ∈ a.regions, RegionWF r

/-- The tail-cache invariant of arena_t: end is the last region of the
chain headed by beg, and NULL exactly when beg is NULL. -/
def EndInv (a : Arena) : Prop :=
  (a.regions = [] → a.endIdx = none) ∧
  (a.regions ≠ [] → a.endIdx = some (a.regions.length - 1))

/-- The byte contents stored at a region index (all zero off the chain). -/
def bytesAt (rs : List Region) (j : Nat) : Nat → Nat :=
  match rs[j]? with
  | some r => r.bytes
  | none => fun _ => 0

/-- Arena states reachable from the empty handle by the four public
operations, with arbitrary argument values. -/
inductive Reachable : Arena → Prop
  | init : Reachable emptyArena
  | alloc {a : Arena} (s : Nat) : Reachable a → Reachable (arena_alloc a s).1
  | realloc {a : Arena} (p : Option Ptr) (old nsz : Nat) :
      Reachable a → Reachable (arena_realloc a p old nsz).1
  | reset {a : Arena} : Reachable a → Reachable (arena_reset a)
  | free {a : Arena} : Reachable a → Reachable (arena_free a)

/-- Arena states reachable from the empty handle when every requested
allocation size stays below 2^31, so that the uint32 product
size * REGION_CAPACITY_MULT cannot overflow. -/
inductive ReachableB : Arena → Prop
  | init : ReachableB emptyArena
  | alloc {a : Arena} (s : Nat) (hs : s < 2 ^ 31) :
      ReachableB a → ReachableB (arena_alloc a s).1
  | realloc {a : Arena} (p : Option Ptr) (old nsz : Nat) (hn : nsz < 2 ^ 31) :
      ReachableB a → ReachableB (arena_realloc a p old nsz).1
  | reset {a : Arena} : ReachableB a → ReachableB (arena_reset a)
  | free {a : Arena} : ReachableB a → ReachableB (arena_free a)

/-- A one-region arena: a single 8 byte allocation on a fresh arena. -/
def sampleA : Arena := (arena_alloc emptyArena 8).1

/-- The region sampleA holds: cursor 8, default capacity, zero bytes. -/
def sampleR : Region := { size := 8, capacity := 512, bytes := fun _ => 0 }

/-- Shrinking-realloc trace, step 1: one 8 byte span on a fresh arena. -/
def shrinkBase : Arena := (arena_alloc emptyArena 8).1

/-- Step 2: the caller fills the span with the bytes 1..8. -/
def shrinkFilled : Arena := writeBytes shrinkBase ⟨0, 0⟩ [1, 2, 3, 4, 5, 6, 7, 8]

/-- Step 3: a second 8 byte allocation, so the first span is no longer the
most recent allocation of its region. -/
def shrinkTwo : Arena := (arena_alloc shrinkFilled 8).1

/-- Step 4: the first span is shrunk from 8 to 4 bytes, which must take
the fallback allocate-and-copy path. -/
def shrinkRes : Arena × Option Ptr := arena_realloc shrinkTwo (some ⟨0, 0⟩) 8 4

/-- Step 5: one more 4 byte allocation after the shrinking realloc. -/
def shrinkNext : Arena × Option Ptr := arena_alloc shrinkRes.1 4

/-- An arena whose single region has exactly 12 bytes of headroom. -/
def tightArena : Arena := (arena_alloc emptyArena 500).1

/-- An allocation of 2^31 + 1 bytes, whose doubled capacity wraps. -/
def overflowArena : Arena := (arena_alloc (arena_alloc emptyArena 1).1 (2 ^ 31 + 1)).1

/-- Cursor-wrap trace, step 1: a 1 byte allocation on a fresh arena. -/
def wrapA1 : Arena := (arena_alloc emptyArena 1).1

/-- Step 2: the caller stores 7 in that byte. -/
def wrapA1w : Arena := writeByte wrapA1 ⟨0, 0⟩ 7

/-- Step 3: allocating 2^31 + 1 bytes appends region 1 (capacity 512,
size 2^31 + 1 after the uint32 wrap exhibited in C4) and returns the
live span at (1, 0). -/
def wrapA2 : Arena := (arena_alloc wrapA1w (2 ^ 31 + 1)).1

/-- Step 4: allocating 2^31 - 1 more bytes lands in region 1 again (its
uint32 remaining capacity reads 2^31 + 511) and wraps its cursor to 0. -/
def wrapA3 : Arena := (arena_alloc wrapA2 (2 ^ 31 - 1)).1

/-- Step 5: reallocating the 1 byte span at (0, 0) to 512 bytes takes the
fallback, whose fresh allocation now sits at (1, 0) — the address of the
live allocation of step 3 — and memcpy writes the caller's byte there. -/
def wrapA4 : Arena × Option Ptr := arena_realloc wrapA3 (some ⟨0, 0⟩) 1 512

theorem U32_pos : 0 < U32 := by norm_num [U32]

theorem U32_val : U32 = 4294967296 := by norm_num [U32]

/-- When both operands are genuine uint32 values and no borrow occurs,
uint32 subtraction agrees with Nat subtraction. -/
theorem u32sub_exact {a b : Nat} (ha : a < U32) (hb : b ≤ a) : u32sub a b = a - b := by
  have hU : U32 = 4294967296 := U32_val
  unfold u32sub
  rw [hU] at ha ⊢
  rw [Nat.mod_eq_of_lt ha, Nat.mod_eq_of_lt (lt_of_le_of_lt hb ha)]
  omega

theorem readByte_eq_bytesAt (a : Arena) (p : Ptr) :
    readByte a p = bytesAt a.regions p.rIdx p.off := by
  unfold readByte bytesAt
  cases a.regions[p.rIdx]? <;> rfl

/-- Equation: the walk stops at the head when the request fits there. -/
theorem rar_fit (r : Region) (rest : List Region) (s : Nat)
    (hfit : s ≤ u32sub r.capacity r.size) :
    region_alloc_rec (r :: rest) s =
      some (({ r with size := (r.size + s) % U32 }) :: rest, 0, r.size) := by
  cases rest <;> simp [region_alloc_rec, hfit]

/-- Equation: a tail region that cannot fit the request appends a fresh
region and allocates there. -/
theorem rar_nofit_nil (r : Region) (s : Nat) (hfit : ¬ (s ≤ u32sub r.capacity r.size)) :
    region_alloc_rec [r] s =
      some ([r, { region_make ((s * REGION_CAPACITY_MULT) % U32) with size := s % U32 }],
        1, 0) := by
  simp [region_alloc_rec, hfit]

/-- Equation: a non-tail region that cannot fit the request is skipped. -/
theorem rar_nofit_cons (r r2 : Region) (rest2 : List Region) (s : Nat)
    (hfit : ¬ (s ≤ u32sub r.capacity r.size)) (rs2 : List Region) (i2 o2 : Nat)
    (heq : region_alloc_rec (r2 :: rest2) s = some (rs2, i2, o2)) :
    region_alloc_rec (r :: r2 :: rest2) s = some (r :: rs2, i2 + 1, o2) := by
  simp [region_alloc_rec, hfit, heq]

theorem rar_ne_none (s : Nat) : ∀ (rs : List Region), rs ≠ [] →
    region_alloc_rec rs s ≠ none := by
  intro rs
  induction rs with
  | nil => intro h; exact absurd rfl h
  | cons r rest ih =>
    intro _
    by_cases hfit : s ≤ u32sub r.capacity r.size
    · rw [rar_fit r rest s hfit]; simp
    · cases rest with
      | nil => rw [rar_nofit_nil r s hfit]; simp
      | cons r2 rest2 =>
        cases heq : region_alloc_rec (r2 :: rest2) s with
        | none => exact absurd heq (ih (by simp))
        | some out =>
          obtain ⟨rs2, i2, o2⟩ := out
          rw [rar_nofit_cons r r2 rest2 s hfit rs2 i2 o2 heq]
          simp

/-- Characterisation of a successful region_alloc_rec run: either the
request was placed in an existing region whose remaining capacity fits it,
or no region fitted and a fresh region was appended at the tail. -/
theorem rar_cases (s : Nat) : ∀ (rs rs1 : List Region) (idx off : Nat),
    region_alloc_rec rs s = some (rs1, idx, off) →
    (∃ r, rs[idx]? = some r ∧ s ≤ u32sub r.capacity r.size ∧ off = r.size ∧
        rs1 = rs.set idx { r with size := (r.size + s) % U32 }) ∨
    (idx = rs.length ∧ off = 0 ∧
        rs1 = rs ++ [{ region_make ((s * REGION_CAPACITY_MULT) % U32) with size := s % U32 }] ∧
        ∀ r ∈ rs, u32sub r.capacity r.size < s) := by
  intro rs
  induction rs with
  | nil => intro rs1 idx off h; simp [region_alloc_rec] at h
  | cons r rest ih =>
    intro rs1 idx off h
    by_cases hfit : s ≤ u32sub r.capacity r.size
    · rw [rar_fit r rest s hfit, Option.some.injEq, Prod.mk.injEq, Prod.mk.injEq] at h
      obtain ⟨h1, h2, h3⟩ := h
      subst h1; subst h2; subst h3
      exact Or.inl ⟨r, List.getElem?_cons_zero, hfit, rfl, rfl⟩
    · cases rest with
      | nil =>
        rw [rar_nofit_nil r s hfit, Option.some.injEq, Prod.mk.injEq, Prod.mk.injEq] at h
        obtain ⟨h1, h2, h3⟩ := h
        subst h1; subst h2; subst h3
        refine Or.inr ⟨rfl, rfl, rfl, ?_⟩
        intro x hx
        rw [List.mem_singleton] at hx
        subst hx
        omega
      | cons r2 rest2 =>
        cases heq : region_alloc_rec (r2 :: rest2) s with
        | none => exact absurd heq (rar_ne_none s (r2 :: rest2) (by simp))
        | some out =>
          obtain ⟨rs2, i2, o2⟩ := out
          rw [rar_nofit_cons r r2 rest2 s hfit rs2 i2 o2 heq, Option.some.injEq,
            Prod.mk.injEq, Prod.mk.injEq] at h
          obtain ⟨h1, h2, h3⟩ := h
          subst h1; subst h2; subst h3
          rcases ih rs2 i2 o2 heq with ⟨rr, hget, hf, hoff, hset⟩ |
            ⟨hidx, hoff, happ, hall⟩
          · refine Or.inl ⟨rr, by simpa using hget, hf, hoff, ?_⟩
            rw [hset]
            rfl
          · refine Or.inr ⟨by simp [hidx], hoff, ?_, ?_⟩
            · rw [happ]; rfl
            · intro x hx
              rcases List.mem_cons.mp hx with hx | hx
              · subst hx; omega
              · exact hall x hx

/-- region_alloc_rec leaves every byte of every region untouched. -/
theorem bytesAt_rar (s : Nat) (rs rs1 : List Region) (idx off : Nat)
    (heq : region_alloc_rec rs s = some (rs1, idx, off)) (j : Nat) :
    bytesAt rs1 j = bytesAt rs j := by
  rcases rar_cases s rs rs1 idx off heq with ⟨r, hget, _, _, hset⟩ | ⟨_, _, happ, _⟩
  · subst hset
    by_cases hj : j = idx
    · subst hj
      have hlt : j < rs.length := by
        rcases List.getElem?_eq_some_iff.mp hget with ⟨hh, _⟩
        exact hh
      simp [bytesAt, List.getElem?_set_self hlt, hget]
    · simp [bytesAt, List.getElem?_set_ne (Ne.symm hj)]
  · subst happ
    by_cases hj : j < rs.length
    · simp [bytesAt, List.getElem?_append_left hj]
    · have hnone : rs[j]? = none := List.getElem?_eq_none (by omega)
      by_cases hj2 : j = rs.length
      · subst hj2
        simp [bytesAt, hnone, List.getElem?_concat_length, region_make]
      · have hnone2 :
            (rs ++ [{ region_make ((s * REGION_CAPACITY_MULT) % U32) with
              size := s % U32 }])[j]? = none := by
          apply List.getElem?_eq_none
          simp only [List.length_append, List.length_singleton]
          omega
        simp [bytesAt, hnone, hnone2]

theorem updRegion_get_same (rs : List Region) (i : Nat) (f : Region → Region) (r : Region)
    (h : rs[i]? = some r) : (updRegion rs i f)[i]? = some (f r) := by
  have hlt : i < rs.length := by
    rcases List.getElem?_eq_some_iff.mp h with ⟨hh, _⟩
    exact hh
  unfold updRegion
  rw [h]
  exact List.getElem?_set_self hlt

theorem updRegion_get_other (rs : List Region) (i : Nat) (f : Region → Region) (j : Nat)
    (h : j ≠ i) : (updRegion rs i f)[j]? = rs[j]? := by
  unfold updRegion
  cases hr : rs[i]? with
  | none => rfl
  | some r => exact List.getElem?_set_ne (Ne.symm h)

theorem updRegion_length (rs : List Region) (i : Nat) (f : Region → Region) :
    (updRegion rs i f).length = rs.length := by
  unfold updRegion
  cases hr : rs[i]? with
  | none => rfl
  | some r => simp

/-- A field of every region survives updRegion when f preserves it. -/
theorem updRegion_map_proj (g : Region → Nat) (rs : List Region) (i : Nat)
    (f : Region → Region) (hf : ∀ r, g (f r) = g r) (j : Nat) :
    (updRegion rs i f)[j]?.map g = rs[j]?.map g := by
  by_cases hj : j = i
  · subst hj
    cases hr : rs[j]? with
    | none => simp [updRegion, hr]
    | some r =>
      rw [updRegion_get_same rs j f r hr]
      simp [hf]
  · rw [updRegion_get_other rs i f j hj]

theorem updRegion_bytesAt (rs : List Region) (i : Nat) (f : Region → Region)
    (hf : ∀ r, (f r).bytes = r.bytes) (j : Nat) :
    bytesAt (updRegion rs i f) j = bytesAt rs j := by
  by_cases hj : j = i
  · subst hj
    cases hr : rs[j]? with
    | none => simp [updRegion, hr]
    | some r => simp [bytesAt, updRegion_get_same rs j f r hr, hr, hf]
  · simp [bytesAt, updRegion_get_other rs i f j hj]

/-- arena_alloc on an arena with no regions: one region of capacity
max(size, REGION_DEFAULT_SIZE) is created and the request always fits. -/
theorem arena_alloc_of_nil (a : Arena) (size : Nat) (h : a.regions = []) :
    arena_alloc a size =
      (⟨[{ region_make (size % U32) with size := size % U32 }], some 0⟩, some ⟨0, 0⟩) := by
  have hcap : (region_make (size % U32)).capacity = max (size % U32) REGION_DEFAULT_SIZE := by
    simp [region_make, Nat.mod_mod_of_dvd _ (dvd_refl U32)]
  have hfit : size % U32 ≤
      u32sub (region_make (size % U32)).capacity (region_make (size % U32)).size := by
    have hlt : max (size % U32) REGION_DEFAULT_SIZE < U32 := by
      have h1 : size % U32 < U32 := Nat.mod_lt _ U32_pos
      have h2 : REGION_DEFAULT_SIZE < U32 := by norm_num [REGION_DEFAULT_SIZE, U32]
      omega
    rw [hcap, show (region_make (size % U32)).size = 0 from rfl,
      u32sub_exact hlt (Nat.zero_le _)]
    omega
  have heq := rar_fit (region_make (size % U32)) [] (size % U32) hfit
  unfold arena_alloc
  simp only [h, heq]
  have hsz : ((region_make (size % U32)).size + size % U32) % U32 = size % U32 := by
    simp [region_make, Nat.mod_mod_of_dvd _ (dvd_refl U32)]
  simp [hsz, endAdvance, region_make]

/-- arena_alloc on a non-empty chain, phrased through the result of
region_alloc_rec. -/
theorem arena_alloc_of_cons (a : Arena) (size : Nat) (h : a.regions ≠ [])
    (rs1 : List Region) (idx off : Nat)
    (heq : region_alloc_rec a.regions (size % U32) = some (rs1, idx, off)) :
    arena_alloc a size = (⟨rs1, endAdvance a.endIdx rs1.length⟩, some ⟨idx, off⟩) := by
  obtain ⟨r, rest, hrs⟩ : ∃ r rest, a.regions = r :: rest := by
    cases hx : a.regions with
    | nil => exact absurd hx h
    | cons r rest => exact ⟨r, rest, rfl⟩
  rw [hrs] at heq
  unfold arena_alloc
  simp only [hrs, heq]

theorem arena_alloc_isSome (a : Arena) (size : Nat) :
    ∃ q, (arena_alloc a size).2 = some q := by
  by_cases hne : a.regions = []
  · rw [arena_alloc_of_nil a size hne]; exact ⟨_, rfl⟩
  · cases heq : region_alloc_rec a.regions (size % U32) with
    | none => exact absurd heq (rar_ne_none _ _ hne)
    | some out =>
      obtain ⟨rs1, idx, off⟩ := out
      rw [arena_alloc_of_cons a size hne rs1 idx off heq]
      exact ⟨_, rfl⟩

/-- arena_alloc writes no byte anywhere: every read is unchanged. -/
theorem arena_alloc_readByte (a : Arena) (size : Nat) (p : Ptr) :
    readByte (arena_alloc a size).1 p = readByte a p := by
  rw [readByte_eq_bytesAt, readByte_eq_bytesAt]
  by_cases hne : a.regions = []
  · rw [arena_alloc_of_nil a size hne]
    cases hj : p.rIdx with
    | zero => simp [bytesAt, hne, region_make]
    | succ n => simp [bytesAt, hne]
  · cases heq : region_alloc_rec a.regions (size % U32) with
    | none => exact absurd heq (rar_ne_none _ _ hne)
    | some out =>
      obtain ⟨rs1, idx, off⟩ := out
      rw [arena_alloc_of_cons a size hne rs1 idx off heq]
      exact congrFun (bytesAt_rar _ _ _ _ _ heq p.rIdx) p.off

/-- The span arena_alloc returns starts at the prior cursor of its region
(or lies in a region the input arena did not have). -/
theorem arena_alloc_ptr_spec (a : Arena) (size : Nat) (q : Ptr)
    (h : (arena_alloc a size).2 = some q) :
    (∃ r, a.regions[q.rIdx]? = some r ∧ q.off = r.size) ∨
      a.regions[q.rIdx]? = none := by
  by_cases hne : a.regions = []
  · simp [hne]
  · cases heq : region_alloc_rec a.regions (size % U32) with
    | none => exact absurd heq (rar_ne_none _ _ hne)
    | some out =>
      obtain ⟨rs1, idx, off⟩ := out
      rw [arena_alloc_of_cons a size hne rs1 idx off heq] at h
      simp only [Option.some.injEq] at h
      subst h
      rcases rar_cases _ _ _ _ _ heq with ⟨rr, hget, _, hoff, _⟩ | ⟨hidx, _, _, _⟩
      · exact Or.inl ⟨rr, hget, hoff⟩
      · exact Or.inr (List.getElem?_eq_none (by simp [hidx]))

/-- memcpy does not change a byte outside the destination range. -/
theorem memcpyA_readByte_frame (a : Arena) (dst src : Ptr) (n : Nat) (p : Ptr)
    (h : p.rIdx ≠ dst.rIdx ∨ p.off < dst.off ∨ dst.off + n ≤ p.off) :
    readByte (memcpyA a dst src n) p = readByte a p := by
  by_cases hr : p.rIdx = dst.rIdx
  · have hcond : ¬ (dst.off ≤ p.off ∧ p.off < dst.off + n) := by
      rcases h with h | h | h
      · exact absurd hr h
      · omega
      · omega
    cases hg : a.regions[dst.rIdx]? with
    | none => simp [readByte, memcpyA, updRegion, hg, hr]
    | some rr => simp [readByte, memcpyA, updRegion_get_same _ _ _ _ hg, hg, hr, hcond]
  · simp [readByte, memcpyA, updRegion_get_other _ _ _ _ hr]

/-- memcpy fills the destination range with the source bytes of the state
before the copy. -/
theorem memcpyA_readByte_dst (a : Arena) (dst src : Ptr) (n i : Nat) (hi : i < n)
    (r : Region) (hdst : a.regions[dst.rIdx]? = some r) :
    readByte (memcpyA a dst src n) ⟨dst.rIdx, dst.off + i⟩ =
      readByte a ⟨src.rIdx, src.off + i⟩ := by
  have hcond : dst.off ≤ dst.off + i ∧ dst.off + i < dst.off + n :=
    ⟨Nat.le_add_right _ _, by omega⟩
  simp [readByte, memcpyA, updRegion_get_same _ _ _ _ hdst, hcond]

theorem memcpyA_map_size (a : Arena) (dst src : Ptr) (n j : Nat) :
    (memcpyA a dst src n).regions[j]?.map Region.size = a.regions[j]?.map Region.size :=
  updRegion_map_proj Region.size a.regions dst.rIdx
    (fun r =>
      { r with bytes := fun o =>
          if dst.off ≤ o ∧ o < dst.off + n then
            readByte a ⟨src.rIdx, src.off + (o - dst.off)⟩
          else r.bytes o })
    (fun _ => rfl) j

theorem memcpyA_map_capacity (a : Arena) (dst src : Ptr) (n j : Nat) :
    (memcpyA a dst src n).regions[j]?.map Region.capacity =
      a.regions[j]?.map Region.capacity :=
  updRegion_map_proj Region.capacity a.regions dst.rIdx
    (fun r =>
      { r with bytes := fun o =>
          if dst.off ≤ o ∧ o < dst.off + n then
            readByte a ⟨src.rIdx, src.off + (o - dst.off)⟩
          else r.bytes o })
    (fun _ => rfl) j

theorem memcpyA_length (a : Arena) (dst src : Ptr) (n : Nat) :
    (memcpyA a dst src n).regions.length = a.regions.length :=
  updRegion_length a.regions dst.rIdx _

/-- Equation: realloc of the NULL pointer is just an allocation. -/
theorem arena_realloc_none (a : Arena) (old_size new_size : Nat) :
    arena_realloc a none old_size new_size = arena_alloc a (new_size % U32) := by
  simp [arena_realloc]

/-- Equation: a pointer whose provenance region is off the chain goes to
the fallback path. -/
theorem arena_realloc_off_chain (a : Arena) (p : Ptr) (old_size new_size : Nat)
    (hg : a.regions[p.rIdx]? = none) :
    arena_realloc a (some p) old_size new_size =
      reallocFallback a p (old_size % U32) (new_size % U32) := by
  simp [arena_realloc, hg]

/-- Equation: an old span not contained in the used range of its region
goes to the fallback path. -/
theorem arena_realloc_not_contained (a : Arena) (p : Ptr) (r : Region)
    (old_size new_size : Nat) (hg : a.regions[p.rIdx]? = some r)
    (h : ¬ (p.off + old_size % U32 ≤ r.size)) :
    arena_realloc a (some p) old_size new_size =
      reallocFallback a p (old_size % U32) (new_size % U32) := by
  simp [arena_realloc, hg, h]

/-- Equation: a contained span failing the in-place test goes to the
fallback path. -/
theorem arena_realloc_no_fast (a : Arena) (p : Ptr) (r : Region)
    (old_size new_size : Nat) (hg : a.regions[p.rIdx]? = some r)
    (hin : p.off + old_size % U32 ≤ r.size)
    (h : ¬ (p.off + old_size % U32 = r.size ∧
      u32sub (new_size % U32) (old_size % U32) < u32sub r.capacity r.size)) :
    arena_realloc a (some p) old_size new_size =
      reallocFallback a p (old_size % U32) (new_size % U32) := by
  simp only [arena_realloc, hg, if_pos hin, if_neg h]

/-- Equation: the in-place extension fast path. -/
theorem arena_realloc_fast (a : Arena) (p : Ptr) (r : Region)
    (old_size new_size : Nat) (hg : a.regions[p.rIdx]? = some r)
    (heq : p.off + old_size % U32 = r.size)
    (hguard : u32sub (new_size % U32) (old_size % U32) < u32sub r.capacity r.size) :
    arena_realloc a (some p) old_size new_size =
      (⟨updRegion a.regions p.rIdx
          (fun rr => { rr with
            size := (rr.size + u32sub (new_size % U32) (old_size % U32)) % U32 }),
        a.endIdx⟩, some p) := by
  simp only [arena_realloc, hg, if_pos (le_of_eq heq), if_pos (And.intro heq hguard)]

/-- The fallback path does not change a byte that was below the cursor of
its region before the call. -/
theorem reallocFallback_frame (a : Arena) (p : Ptr) (old nsz : Nat) (j : Nat) (r : Region)
    (hj : a.regions[j]? = some r) (i : Nat) (hi : i < r.size) :
    readByte (reallocFallback a p old nsz).1 ⟨j, i⟩ = readByte a ⟨j, i⟩ := by
  obtain ⟨q, hq⟩ := arena_alloc_isSome a nsz
  have hpair : arena_alloc a nsz = ((arena_alloc a nsz).1, some q) := by
    rw [← hq]
  rw [reallocFallback, hpair]
  have halloc : ∀ pr, readByte (arena_alloc a nsz).1 pr = readByte a pr :=
    arena_alloc_readByte a nsz
  rcases arena_alloc_ptr_spec a nsz q hq with ⟨rq, hgetq, hoffq⟩ | hnone
  · by_cases hjq : j = q.rIdx
    · have hrq : rq = r := by
        rw [hjq] at hj
        rw [hj] at hgetq
        exact (Option.some.inj hgetq).symm
      have hlt : i < q.off := by rw [hoffq, hrq]; exact hi
      exact (memcpyA_readByte_frame (arena_alloc a nsz).1 q p old ⟨j, i⟩
        (Or.inr (Or.inl hlt))).trans (halloc ⟨j, i⟩)
    · exact (memcpyA_readByte_frame (arena_alloc a nsz).1 q p old ⟨j, i⟩
        (Or.inl hjq)).trans (halloc ⟨j, i⟩)
  · have hjq : j ≠ q.rIdx := by
      intro hcontra
      rw [hcontra] at hj
      rw [hj] at hnone
      cases hnone
    exact (memcpyA_readByte_frame (arena_alloc a nsz).1 q p old ⟨j, i⟩
      (Or.inl hjq)).trans (halloc ⟨j, i⟩)

/-- Neither arena_alloc nor arena_realloc modifies a byte that lies below
the current cursor of its region: every live allocation other than the
reallocated span itself is left intact. -/
theorem arena_realloc_frame (a : Arena) (ptr : Option Ptr) (old nsz : Nat) (j : Nat)
    (r : Region) (hj : a.regions[j]? = some r) (i : Nat) (hi : i < r.size) :
    readByte (arena_realloc a ptr old nsz).1 ⟨j, i⟩ = readByte a ⟨j, i⟩ := by
  cases ptr with
  | none =>
    rw [arena_realloc_none]
    exact arena_alloc_readByte a (nsz % U32) ⟨j, i⟩
  | some p =>
    cases hg : a.regions[p.rIdx]? with
    | none =>
      rw [arena_realloc_off_chain a p old nsz hg]
      exact reallocFallback_frame a p (old % U32) (nsz % U32) j r hj i hi
    | some rr =>
      by_cases h1 : p.off + old % U32 ≤ rr.size
      · by_cases h2 : p.off + old % U32 = rr.size ∧
          u32sub (nsz % U32) (old % U32) < u32sub rr.capacity rr.size
        · rw [arena_realloc_fast a p rr old nsz hg h2.1 h2.2]
          rw [readByte_eq_bytesAt, readByte_eq_bytesAt]
          exact congrFun (updRegion_bytesAt a.regions p.rIdx
            (fun rr => { rr with
              size := (rr.size + u32sub (nsz % U32) (old % U32)) % U32 })
            (fun _ => rfl) j) i
        · rw [arena_realloc_no_fast a p rr old nsz hg h1 h2]
          exact reallocFallback_frame a p (old % U32) (nsz % U32) j r hj i hi
      · rw [arena_realloc_not_contained a p rr old nsz hg h1]
        exact reallocFallback_frame a p (old % U32) (nsz % U32) j r hj i hi

theorem region_make_WF (c : Nat) : RegionWF (region_make c) := by
  refine ⟨Nat.zero_le _, ?_⟩
  have h1 : c % U32 < U32 := Nat.mod_lt _ U32_pos
  have h2 : REGION_DEFAULT_SIZE < U32 := by norm_num [REGION_DEFAULT_SIZE, U32]
  exact Nat.max_lt.mpr ⟨h1, h2⟩

theorem updRegion_WF (rs : List Region) (i : Nat) (f : Region → Region)
    (hf : ∀ r, (f r).size = r.size ∧ (f r).capacity = r.capacity)
    (h : ∀ r ∈ rs, RegionWF r) : ∀ r ∈ updRegion rs i f, RegionWF r := by
  intro x hx
  unfold updRegion at hx
  cases hg : rs[i]? with
  | none => rw [hg] at hx; exact h x hx
  | some r =>
    rw [hg] at hx
    rcases List.mem_or_eq_of_mem_set hx with hx | hx
    · exact h x hx
    · subst hx
      have hr := h r (List.getElem?_mem hg)
      exact ⟨(hf r).1 ▸ (hf r).2 ▸ hr.1, (hf r).2 ▸ hr.2⟩

/-- region_alloc_rec keeps every region consistent provided the request is
small enough that the capacity product cannot wrap. -/
theorem rar_WF (s : Nat) (hs : s < 2 ^ 31) (rs rs1 : List Region) (idx off : Nat)
    (hwf : ∀ r ∈ rs, RegionWF r)
    (heq : region_alloc_rec rs s = some (rs1, idx, off)) : ∀ r ∈ rs1, RegionWF r := by
  have hU : U32 = 4294967296 := U32_val
  rcases rar_cases s rs rs1 idx off heq with ⟨r, hget, hfit, _, hset⟩ | ⟨_, _, happ, _⟩
  · subst hset
    intro x hx
    rcases List.mem_or_eq_of_mem_set hx with hx | hx
    · exact hwf x hx
    · subst hx
      obtain ⟨hr1, hr2⟩ := hwf r (List.getElem?_mem hget)
      rw [u32sub_exact hr2 hr1] at hfit
      have hlt : r.size + s < U32 := by omega
      refine ⟨?_, hr2⟩
      show (r.size + s) % U32 ≤ r.capacity
      rw [Nat.mod_eq_of_lt hlt]
      omega
  · subst happ
    intro x hx
    rcases List.mem_append.mp hx with hx | hx
    · exact hwf x hx
    · rw [List.mem_singleton] at hx
      subst hx
      have h2s : s * REGION_CAPACITY_MULT < U32 := by
        norm_num [REGION_CAPACITY_MULT, hU]
        omega
      have hms : s % U32 = s := Nat.mod_eq_of_lt (by omega)
      have hm2s : (s * REGION_CAPACITY_MULT) % U32 = s * REGION_CAPACITY_MULT :=
        Nat.mod_eq_of_lt h2s
      refine ⟨?_, (region_make_WF _).2⟩
      show s % U32 ≤ (region_make ((s * REGION_CAPACITY_MULT) % U32)).capacity
      show s % U32 ≤ max ((s * REGION_CAPACITY_MULT) % U32 % U32) REGION_DEFAULT_SIZE
      rw [Nat.mod_mod_of_dvd _ (dvd_refl U32), hms, hm2s]
      have : s ≤ s * REGION_CAPACITY_MULT := by
        norm_num [REGION_CAPACITY_MULT]
        omega
      exact le_trans this (Nat.le_max_left _ _)

theorem arena_alloc_WF (a : Arena) (size : Nat) (hs : size < 2 ^ 31) (hwf : ArenaWF a) :
    ArenaWF (arena_alloc a size).1 := by
  have hs' : size % U32 < 2 ^ 31 := lt_of_le_of_lt (Nat.mod_le _ _) hs
  by_cases hne : a.regions = []
  · rw [arena_alloc_of_nil a size hne]
    intro x hx
    rw [List.mem_singleton] at hx
    subst hx
    refine ⟨?_, (region_make_WF (size % U32)).2⟩
    show size % U32 ≤ max (size % U32 % U32) REGION_DEFAULT_SIZE
    rw [Nat.mod_mod_of_dvd _ (dvd_refl U32)]
    exact Nat.le_max_left _ _
  · cases heq : region_alloc_rec a.regions (size % U32) with
    | none => exact absurd heq (rar_ne_none _ _ hne)
    | some out =>
      obtain ⟨rs1, idx, off⟩ := out
      rw [arena_alloc_of_cons a size hne rs1 idx off heq]
      exact rar_WF (size % U32) hs' a.regions rs1 idx off hwf heq

theorem reallocFallback_WF (a : Arena) (p : Ptr) (old nsz : Nat)
    (hn : nsz < 2 ^ 31) (hwf : ArenaWF a) : ArenaWF (reallocFallback a p old nsz).1 := by
  obtain ⟨q, hq⟩ := arena_alloc_isSome a nsz
  have hpair : arena_alloc a nsz = ((arena_alloc a nsz).1, some q) := by
    rw [← hq]
  rw [reallocFallback, hpair]
  show ArenaWF (memcpyA (arena_alloc a nsz).1 q p old)
  have halloc := arena_alloc_WF a nsz hn hwf
  intro x hx
  exact updRegion_WF (arena_alloc a nsz).1.regions q.rIdx
    (fun r =>
      { r with bytes := fun o =>
          if q.off ≤ o ∧ o < q.off + old then
            readByte (arena_alloc a nsz).1 ⟨p.rIdx, p.off + (o - q.off)⟩
          else r.bytes o })
    (fun _ => ⟨rfl, rfl⟩) halloc x hx

theorem arena_realloc_WF (a : Arena) (ptr : Option Ptr) (old nsz : Nat)
    (hn : nsz < 2 ^ 31) (hwf : ArenaWF a) : ArenaWF (arena_realloc a ptr old nsz).1 := by
  have hn' : nsz % U32 < 2 ^ 31 := lt_of_le_of_lt (Nat.mod_le _ _) hn
  cases ptr with
  | none =>
    rw [arena_realloc_none]
    exact arena_alloc_WF a (nsz % U32) hn' hwf
  | some p =>
    cases hg : a.regions[p.rIdx]? with
    | none =>
      rw [arena_realloc_off_chain a p old nsz hg]
      exact reallocFallback_WF a p (old % U32) (nsz % U32) hn' hwf
    | some rr =>
      by_cases h1 : p.off + old % U32 ≤ rr.size
      · by_cases h2 : p.off + old % U32 = rr.size ∧
          u32sub (nsz % U32) (old % U32) < u32sub rr.capacity rr.size
        · rw [arena_realloc_fast a p rr old nsz hg h2.1 h2.2]
          intro x hx
          have hupd : updRegion a.regions p.rIdx
              (fun r => { r with
                size := (r.size + u32sub (nsz % U32) (old % U32)) % U32 }) =
              a.regions.set p.rIdx
                { rr with
                  size := (rr.size + u32sub (nsz % U32) (old % U32)) % U32 } := by
            unfold updRegion
            rw [hg]
          rw [hupd] at hx
          rcases List.mem_or_eq_of_mem_set hx with hx | hx
          · exact hwf x hx
          · subst hx
            have hU : U32 = 4294967296 := U32_val
            obtain ⟨hrr1, hrr2⟩ := hwf rr (List.getElem?_mem hg)
            have hguard := h2.2
            rw [u32sub_exact hrr2 hrr1] at hguard
            have hlt : rr.size + u32sub (nsz % U32) (old % U32) < U32 := by omega
            refine ⟨?_, hrr2⟩
            show (rr.size + u32sub (nsz % U32) (old % U32)) % U32 ≤ rr.capacity
            rw [Nat.mod_eq_of_lt hlt]
            omega
        · rw [arena_realloc_no_fast a p rr old nsz hg h1 h2]
          exact reallocFallback_WF a p (old % U32) (nsz % U32) hn' hwf
      · rw [arena_realloc_not_contained a p rr old nsz hg h1]
        exact reallocFallback_WF a p (old % U32) (nsz % U32) hn' hwf

theorem arena_alloc_EndInv (a : Arena) (s : Nat) (h : EndInv a) :
    EndInv (arena_alloc a s).1 := by
  by_cases hne : a.regions = []
  · rw [arena_alloc_of_nil a s hne]
    exact ⟨fun habs => by simp at habs, fun _ => rfl⟩
  · cases heq : region_alloc_rec a.regions (s % U32) with
    | none => exact absurd heq (rar_ne_none _ _ hne)
    | some out =>
      obtain ⟨rs1, idx, off⟩ := out
      rw [arena_alloc_of_cons a s hne rs1 idx off heq]
      show EndInv ⟨rs1, endAdvance a.endIdx rs1.length⟩
      have hpos : 0 < a.regions.length := List.length_pos.mpr hne
      have hlen : rs1.length = a.regions.length ∨ rs1.length = a.regions.length + 1 := by
        rcases rar_cases _ _ _ _ _ heq with ⟨r, _, _, _, hset⟩ | ⟨_, _, happ, _⟩
        · subst hset; left; simp
        · subst happ; right; simp
      have he := h.2 hne
      constructor
      · intro habs
        exfalso
        have habs2 : rs1 = [] := habs
        rw [habs2] at hlen
        rcases hlen with hl | hl
        · simp at hl
          omega
        · simp at hl
      · intro _
        show endAdvance a.endIdx rs1.length = some (rs1.length - 1)
        rw [he]
        simp only [endAdvance]
        rcases hlen with hl | hl
        · rw [hl, if_neg (by omega)]
        · rw [hl, if_pos (by omega)]
          congr 1
          omega

theorem memcpyA_EndInv (a : Arena) (dst src : Ptr) (n : Nat) (h : EndInv a) :
    EndInv (memcpyA a dst src n) := by
  have hlen := memcpyA_length a dst src n
  constructor
  · intro habs
    have hz : a.regions.length = 0 := by rw [← hlen, habs]; rfl
    exact h.1 (List.length_eq_zero.mp hz)
  · intro hne2
    have hne : a.regions ≠ [] := by
      intro habs
      apply hne2
      apply List.length_eq_zero.mp
      rw [hlen, habs]
      rfl
    show a.endIdx = some ((memcpyA a dst src n).regions.length - 1)
    rw [hlen]
    exact h.2 hne

theorem updRegion_EndInv (a : Arena) (i : Nat) (f : Region → Region) (h : EndInv a) :
    EndInv ⟨updRegion a.regions i f, a.endIdx⟩ := by
  have hlen := updRegion_length a.regions i f
  constructor
  · intro habs
    have hz : a.regions.length = 0 := by
      rw [← hlen]
      show (⟨updRegion a.regions i f, a.endIdx⟩ : Arena).regions.length = 0
      rw [habs]
      rfl
    exact h.1 (List.length_eq_zero.mp hz)
  · intro hne2
    have hne : a.regions ≠ [] := by
      intro habs
      apply hne2
      show updRegion a.regions i f = []
      apply List.length_eq_zero.mp
      rw [hlen, habs]
      rfl
    show a.endIdx = some ((updRegion a.regions i f).length - 1)
    rw [hlen]
    exact h.2 hne

theorem reallocFallback_EndInv (a : Arena) (p : Ptr) (old nsz : Nat) (h : EndInv a) :
    EndInv (reallocFallback a p old nsz).1 := by
  obtain ⟨q, hq⟩ := arena_alloc_isSome a nsz
  have hpair : arena_alloc a nsz = ((arena_alloc a nsz).1, some q) := by
    rw [← hq]
  rw [reallocFallback, hpair]
  show EndInv (memcpyA (arena_alloc a nsz).1 q p old)
  exact memcpyA_EndInv _ q p old (arena_alloc_EndInv a nsz h)

theorem arena_realloc_EndInv (a : Arena) (ptr : Option Ptr) (old nsz : Nat)
    (h : EndInv a) : EndInv (arena_realloc a ptr old nsz).1 := by
  cases ptr with
  | none =>
    rw [arena_realloc_none]
    exact arena_alloc_EndInv a (nsz % U32) h
  | some p =>
    cases hg : a.regions[p.rIdx]? with
    | none =>
      rw [arena_realloc_off_chain a p old nsz hg]
      exact reallocFallback_EndInv a p (old % U32) (nsz % U32) h
    | some rr =>
      by_cases h1 : p.off + old % U32 ≤ rr.size
      · by_cases h2 : p.off + old % U32 = rr.size ∧
          u32sub (nsz % U32) (old % U32) < u32sub rr.capacity rr.size
        · rw [arena_realloc_fast a p rr old nsz hg h2.1 h2.2]
          exact updRegion_EndInv a p.rIdx _ h
        · rw [arena_realloc_no_fast a p rr old nsz hg h1 h2]
          exact reallocFallback_EndInv a p (old % U32) (nsz % U32) h
      · rw [arena_realloc_not_contained a p rr old nsz hg h1]
        exact reallocFallback_EndInv a p (old % U32) (nsz % U32) h

theorem arena_reset_EndInv (a : Arena) (h : EndInv a) : EndInv (arena_reset a) := by
  constructor
  · intro habs
    have hz : a.regions = [] := by
      have hl := congrArg List.length habs
      simp [arena_reset] at hl
      exact hl
    exact h.1 hz
  · intro hne2
    have hne : a.regions ≠ [] := by
      intro habs
      apply hne2
      show a.regions.map resetRegion = []
      rw [habs]
      rfl
    show a.endIdx = some ((a.regions.map resetRegion).length - 1)
    rw [List.length_map]
    exact h.2 hne

theorem arena_reset_WF (a : Arena) (hwf : ArenaWF a) : ArenaWF (arena_reset a) := by
  intro x hx
  rw [arena_reset] at hx
  simp only [List.mem_map] at hx
  obtain ⟨y, hy, hxy⟩ := hx
  subst hxy
  exact ⟨Nat.zero_le _, (hwf y hy).2⟩

/-- On a consistent chain with a small request, the region
region_alloc_rec bumps keeps its index and its cursor never moves back. -/
theorem rar_get_mono (s : Nat) (hs : s < 2 ^ 31) (rs rs1 : List Region) (idx off : Nat)
    (hwf : ∀ r ∈ rs, RegionWF r)
    (heq : region_alloc_rec rs s = some (rs1, idx, off)) (j : Nat) (r : Region)
    (hj : rs[j]? = some r) :
    ∃ r2, rs1[j]? = some r2 ∧ r.size ≤ r2.size := by
  have hU : U32 = 4294967296 := U32_val
  have hlt : j < rs.length := (List.getElem?_eq_some_iff.mp hj).1
  rcases rar_cases s rs rs1 idx off heq with ⟨r0, hget, hfit, _, hset⟩ | ⟨_, _, happ, _⟩
  · subst hset
    by_cases hji : j = idx
    · subst hji
      rw [hj] at hget
      obtain rfl : r0 = r := (Option.some.inj hget).symm
      obtain ⟨hw1, hw2⟩ := hwf r0 (List.getElem?_mem hj)
      rw [u32sub_exact hw2 hw1] at hfit
      refine ⟨{ r0 with size := (r0.size + s) % U32 },
        List.getElem?_set_self (by simpa using hlt), ?_⟩
      show r0.size ≤ (r0.size + s) % U32
      rw [Nat.mod_eq_of_lt (by omega)]
      omega
    · exact ⟨r, by rw [List.getElem?_set_ne (Ne.symm hji)]; exact hj, le_refl _⟩
  · subst happ
    exact ⟨r, by rw [List.getElem?_append_left hlt]; exact hj, le_refl _⟩

/-- arena_alloc never moves a region's cursor back (small requests on a
consistent arena). -/
theorem arena_alloc_get_mono (a : Arena) (s : Nat) (hs : s < 2 ^ 31) (hwf : ArenaWF a)
    (j : Nat) (r : Region) (hj : a.regions[j]? = some r) :
    ∃ r2, (arena_alloc a s).1.regions[j]? = some r2 ∧ r.size ≤ r2.size := by
  by_cases hne : a.regions = []
  · rw [hne] at hj
    simp at hj
  · cases heq : region_alloc_rec a.regions (s % U32) with
    | none => exact absurd heq (rar_ne_none _ _ hne)
    | some out =>
      obtain ⟨rs1, idx, off⟩ := out
      rw [arena_alloc_of_cons a s hne rs1 idx off heq]
      show ∃ r2, rs1[j]? = some r2 ∧ r.size ≤ r2.size
      exact rar_get_mono (s % U32) (lt_of_le_of_lt (Nat.mod_le _ _) hs) a.regions rs1
        idx off hwf heq j r hj

/-- memcpy keeps every region in place with an unchanged size. -/
theorem memcpyA_get_mono (a : Arena) (dst src : Ptr) (n j : Nat) (r : Region)
    (hj : a.regions[j]? = some r) :
    ∃ r2, (memcpyA a dst src n).regions[j]? = some r2 ∧ r.size ≤ r2.size := by
  have hm := memcpyA_map_size a dst src n j
  rw [hj] at hm
  cases hg : (memcpyA a dst src n).regions[j]? with
  | none =>
    rw [hg] at hm
    simp at hm
  | some r2 =>
    rw [hg] at hm
    simp only [Option.map_some'] at hm
    exact ⟨r2, rfl, le_of_eq (Option.some.inj hm).symm⟩

theorem reallocFallback_get_mono (a : Arena) (p : Ptr) (old nsz : Nat)
    (hn : nsz < 2 ^ 31) (hwf : ArenaWF a) (j : Nat) (r : Region)
    (hj : a.regions[j]? = some r) :
    ∃ r2, (reallocFallback a p old nsz).1.regions[j]? = some r2 ∧ r.size ≤ r2.size := by
  obtain ⟨q, hq⟩ := arena_alloc_isSome a nsz
  have hpair : arena_alloc a nsz = ((arena_alloc a nsz).1, some q) := by
    rw [← hq]
  rw [reallocFallback, hpair]
  show ∃ r2, (memcpyA (arena_alloc a nsz).1 q p old).regions[j]? = some r2 ∧
    r.size ≤ r2.size
  obtain ⟨r1, h1, hs1⟩ := arena_alloc_get_mono a nsz hn hwf j r hj
  obtain ⟨r2, h2, hs2⟩ := memcpyA_get_mono (arena_alloc a nsz).1 q p old j r1 h1
  exact ⟨r2, h2, le_trans hs1 hs2⟩

/-- arena_realloc never moves a region's cursor back (small new sizes on
a consistent arena). -/
theorem arena_realloc_get_mono (a : Arena) (ptr : Option Ptr) (old nsz : Nat)
    (hn : nsz < 2 ^ 31) (hwf : ArenaWF a) (j : Nat) (r : Region)
    (hj : a.regions[j]? = some r) :
    ∃ r2, (arena_realloc a ptr old nsz).1.regions[j]? = some r2 ∧ r.size ≤ r2.size := by
  have hU : U32 = 4294967296 := U32_val
  have hn2 : nsz % U32 < 2 ^ 31 := lt_of_le_of_lt (Nat.mod_le _ _) hn
  cases ptr with
  | none =>
    rw [arena_realloc_none]
    exact arena_alloc_get_mono a (nsz % U32) hn2 hwf j r hj
  | some p =>
    cases hg : a.regions[p.rIdx]? with
    | none =>
      rw [arena_realloc_off_chain a p old nsz hg]
      exact reallocFallback_get_mono a p (old % U32) (nsz % U32) hn2 hwf j r hj
    | some rr =>
      by_cases h1 : p.off + old % U32 ≤ rr.size
      · by_cases h2 : p.off + old % U32 = rr.size ∧
          u32sub (nsz % U32) (old % U32) < u32sub rr.capacity rr.size
        · rw [arena_realloc_fast a p rr old nsz hg h2.1 h2.2]
          show ∃ r2, (updRegion a.regions p.rIdx
            (fun r3 => { r3 with
              size := (r3.size + u32sub (nsz % U32) (old % U32)) % U32 }))[j]? =
              some r2 ∧ r.size ≤ r2.size
          by_cases hji : j = p.rIdx
          · have hj2 : a.regions[p.rIdx]? = some r := by rw [← hji]; exact hj
            rw [hj2] at hg
            have hrr : rr = r := (Option.some.inj hg).symm
            obtain ⟨hw1, hw2⟩ := hwf r (List.getElem?_mem hj)
            have hguard := h2.2
            rw [hrr, u32sub_exact hw2 hw1] at hguard
            refine ⟨{ r with
              size := (r.size + u32sub (nsz % U32) (old % U32)) % U32 }, ?_, ?_⟩
            · rw [hji]
              exact updRegion_get_same a.regions p.rIdx _ r hj2
            · show r.size ≤ (r.size + u32sub (nsz % U32) (old % U32)) % U32
              rw [Nat.mod_eq_of_lt (by omega)]
              omega
          · exact ⟨r, by rw [updRegion_get_other _ _ _ _ hji]; exact hj, le_refl _⟩
        · rw [arena_realloc_no_fast a p rr old nsz hg h1 h2]
          exact reallocFallback_get_mono a p (old % U32) (nsz % U32) hn2 hwf j r hj
      · rw [arena_realloc_not_contained a p rr old nsz hg h1]
        exact reallocFallback_get_mono a p (old % U32) (nsz % U32) hn2 hwf j r hj

/-- Dispatch of the consistency preservation over an operation. -/
theorem applyOp_WF (a : Arena) (op : Op) (hwf : ArenaWF a) (hb : opBound op) :
    ArenaWF (applyOp a op) := by
  cases op with
  | alloc s => exact arena_alloc_WF a s hb hwf
  | realloc p old nsz => exact arena_realloc_WF a p old nsz hb hwf

/-- Dispatch of cursor monotonicity over an operation. -/
theorem applyOp_get_mono (a : Arena) (op : Op) (hwf : ArenaWF a) (hb : opBound op)
    (j : Nat) (r : Region) (hj : a.regions[j]? = some r) :
    ∃ r2, (applyOp a op).regions[j]? = some r2 ∧ r.size ≤ r2.size := by
  cases op with
  | alloc s => exact arena_alloc_get_mono a s hb hwf j r hj
  | realloc p old nsz => exact arena_realloc_get_mono a p old nsz hb hwf j r hj

/-- One operation never modifies a byte below the current cursor of its
region. -/
theorem applyOp_frame (a : Arena) (op : Op) (j : Nat) (r : Region) (i : Nat)
    (hj : a.regions[j]? = some r) (hi : i < r.size) :
    readByte (applyOp a op) ⟨j, i⟩ = readByte a ⟨j, i⟩ := by
  cases op with
  | alloc s => exact arena_alloc_readByte a s ⟨j, i⟩
  | realloc p old nsz => exact arena_realloc_frame a p old nsz j r hj i hi

/-- When no region of the chain has room, region_alloc_rec appends the
fresh region after the last region and allocates at its start. -/
theorem rar_nofit_all (s : Nat) : ∀ rs : List Region, rs ≠ [] →
    (∀ r ∈ rs, u32sub r.capacity r.size < s) →
    region_alloc_rec rs s =
      some (rs ++ [{ region_make ((s * REGION_CAPACITY_MULT) % U32) with size := s % U32 }],
        rs.length, 0) := by
  intro rs
  induction rs with
  | nil => intro h; exact absurd rfl h
  | cons r rest ih =>
    intro _ hall
    have hfit : ¬ (s ≤ u32sub r.capacity r.size) := by
      have := hall r (List.mem_cons_self r rest)
      omega
    cases rest with
    | nil =>
      rw [rar_nofit_nil r s hfit]
      rfl
    | cons r2 rest2 =>
      have hrec := ih (by simp) (fun x hx => hall x (List.mem_cons_of_mem r hx))
      rw [rar_nofit_cons r r2 rest2 s hfit _ _ _ hrec]
      rfl

/-- The pointer arena_alloc returns indexes a region of the new state. -/
theorem arena_alloc_ptr_valid (a : Arena) (size : Nat) (q : Ptr)
    (h : (arena_alloc a size).2 = some q) :
    ∃ rq, (arena_alloc a size).1.regions[q.rIdx]? = some rq := by
  by_cases hne : a.regions = []
  · rw [arena_alloc_of_nil a size hne] at h ⊢
    simp only [Option.some.injEq] at h
    subst h
    exact ⟨_, rfl⟩
  · cases heq : region_alloc_rec a.regions (size % U32) with
    | none => exact absurd heq (rar_ne_none _ _ hne)
    | some out =>
      obtain ⟨rs1, idx, off⟩ := out
      rw [arena_alloc_of_cons a size hne rs1 idx off heq] at h ⊢
      simp only [Option.some.injEq] at h
      subst h
      show ∃ rq, rs1[idx]? = some rq
      rcases rar_cases _ _ _ _ _ heq with ⟨r, hget, _, _, hset⟩ | ⟨hidx, _, happ, _⟩
      · subst hset
        have hlt : idx < a.regions.length := by
          rcases List.getElem?_eq_some_iff.mp hget with ⟨hh, _⟩
          exact hh
        exact ⟨_, List.getElem?_set_self (by simpa using hlt)⟩
      · subst happ
        subst hidx
        exact ⟨_, List.getElem?_concat_length _ _⟩

theorem resetRegion_idem (r : Region) : resetRegion (resetRegion r) = resetRegion r := by
  unfold resetRegion
  congr 1
  funext o
  by_cases h : o < r.capacity <;> simp [h]

theorem arena_reset_idem (a : Arena) : arena_reset (arena_reset a) = arena_reset a := by
  unfold arena_reset
  show Arena.mk ((a.regions.map resetRegion).map resetRegion) a.endIdx =
    Arena.mk (a.regions.map resetRegion) a.endIdx
  have hcomp : resetRegion ∘ resetRegion = resetRegion := by
    funext r
    exact resetRegion_idem r
  rw [List.map_map, hcomp]

/-- C1: the claim fails on the code as its own doc comment describes it.
On the fallback path arena_realloc performs memcpy(new_ptr, ptr, oldsize),
copying old_size bytes instead of min(old_size, new_size).  Shrinking the
8 byte span at offset 0 (filled with 1..8, and not the most recent
allocation of its region) to 4 bytes returns the fresh span at offset 16,
yet the byte at offset 20 — beyond the new span — changes from 0 to 5 and
the byte at offset 23 to 8. -/
theorem c1_fallback_copies_old_size :
    shrinkRes.2 = some ⟨0, 16⟩ ∧
    readByte shrinkTwo ⟨0, 20⟩ = 0 ∧
    readByte shrinkRes.1 ⟨0, 20⟩ = 5 ∧
    readByte shrinkRes.1 ⟨0, 23⟩ = 8 := by
  refine ⟨?_, ?_, ?_, ?_⟩ <;> decide

/-- C2: the claim fails on the code because of the same memcpy overflow.
After the shrinking realloc of the trace, the free space of the region
holds the bytes 5..8, and the next arena_alloc returns exactly that span:
its first byte reads 5, not 0. -/
theorem c2_alloc_span_not_zero :
    shrinkNext.2 = some ⟨0, 20⟩ ∧
    readByte shrinkNext.1 ⟨0, 20⟩ = 5 ∧
    readByte shrinkNext.1 ⟨0, 23⟩ = 8 := by
  refine ⟨?_, ?_, ?_⟩ <;> decide

/-- C3 counterexample: tightArena has one region with capacity 512 and
cursor 500, so the remaining capacity, 12, equals the delta of a realloc
from 500 to 512 exactly; the claim then demands in-place extension, but
the code requires strictly more headroom and reallocates: the returned
pointer is the start of a fresh second region, not the old pointer. -/
theorem c3_counterexample :
    (tightArena.regions[0]?).map Region.capacity = some 512 ∧
    (tightArena.regions[0]?).map Region.size = some 500 ∧
    (arena_realloc tightArena (some ⟨0, 0⟩) 500 512).2 = some ⟨1, 0⟩ ∧
    (⟨1, 0⟩ : Ptr) ≠ ⟨0, 0⟩ := by
  refine ⟨?_, ?_, ?_, ?_⟩ <;> decide

/-- C4 counterexample: allocating 2^31 + 1 bytes after a 1 byte allocation
appends a region whose capacity comes from the wrapped uint32 product
(2^31 + 1) * 2 = 2, clamped to 512, while its size is set to 2^31 + 1:
size exceeds capacity. -/
theorem c4_counterexample :
    (overflowArena.regions[1]?).map Region.size = some (2 ^ 31 + 1) ∧
    (overflowArena.regions[1]?).map Region.capacity = some 512 ∧
    (512 : Nat) < 2 ^ 31 + 1 := by
  refine ⟨?_, ?_, ?_⟩ <;> decide

/-- C6 counterexample: on an empty arena every size exceeds the remaining
capacity of every existing region vacuously, yet arena_alloc 600 creates
the single region with capacity max(600, 512) = 600, which is smaller
than 600 * REGION_CAPACITY_MULT = 1200. -/
theorem c6_counterexample :
    (arena_alloc emptyArena 600).1.regions.length = 1 ∧
    ((arena_alloc emptyArena 600).1.regions[0]?).map Region.capacity = some 600 ∧
    (600 : Nat) < 600 * REGION_CAPACITY_MULT := by
  refine ⟨?_, ?_, ?_⟩ <;> decide

/-- C3 (amended): when the old span ends exactly at its region's cursor,
old_size ≤ new_size, and the remaining capacity strictly exceeds the delta
new_size - old_size, arena_realloc advances the region's size by the delta
and returns the same pointer, touching no byte of the arena. -/
theorem c3_in_place_extension (a : Arena) (p : Ptr) (r : Region) (old nsz : Nat)
    (hr : a.regions[p.rIdx]? = some r) (hwf1 : r.size ≤ r.capacity)
    (hwf2 : r.capacity < U32) (hlast : p.off + old = r.size) (hle : old ≤ nsz)
    (hn : nsz < U32) (hroom : nsz - old < r.capacity - r.size) :
    arena_realloc a (some p) old nsz =
      (⟨a.regions.set p.rIdx { r with size := r.size + (nsz - old) }, a.endIdx⟩, some p) ∧
    (∀ q : Ptr, readByte (arena_realloc a (some p) old nsz).1 q = readByte a q) := by
  have hU : U32 = 4294967296 := U32_val
  have hold : old < U32 := lt_of_le_of_lt hle hn
  have holdm : old % U32 = old := Nat.mod_eq_of_lt hold
  have hnm : nsz % U32 = nsz := Nat.mod_eq_of_lt hn
  have hgl : p.off + old % U32 = r.size := by rw [holdm]; exact hlast
  have hsub1 : u32sub (nsz % U32) (old % U32) = nsz - old := by
    rw [hnm, holdm]
    exact u32sub_exact hn hle
  have hsub2 : u32sub r.capacity r.size = r.capacity - r.size := u32sub_exact hwf2 hwf1
  have hguard : u32sub (nsz % U32) (old % U32) < u32sub r.capacity r.size := by
    rw [hsub1, hsub2]
    exact hroom
  have heqn := arena_realloc_fast a p r old nsz hr hgl hguard
  have hlt : r.size + (nsz - old) < U32 := by omega
  have hval : (r.size + u32sub (nsz % U32) (old % U32)) % U32 = r.size + (nsz - old) := by
    rw [hsub1]
    exact Nat.mod_eq_of_lt hlt
  have hupd : updRegion a.regions p.rIdx
      (fun rr => { rr with size := (rr.size + u32sub (nsz % U32) (old % U32)) % U32 }) =
      a.regions.set p.rIdx { r with size := r.size + (nsz - old) } := by
    unfold updRegion
    rw [hr]
    show a.regions.set p.rIdx
        { r with size := (r.size + u32sub (nsz % U32) (old % U32)) % U32 } =
      a.regions.set p.rIdx { r with size := r.size + (nsz - old) }
    rw [hval]
  constructor
  · rw [heqn, hupd]
  · intro q
    rw [heqn]
    rw [readByte_eq_bytesAt, readByte_eq_bytesAt]
    exact congrFun (updRegion_bytesAt a.regions p.rIdx
      (fun rr => { rr with size := (rr.size + u32sub (nsz % U32) (old % U32)) % U32 })
      (fun _ => rfl) q.rIdx) q.off

/-- Witness for C3: growing the single 8 byte allocation of sampleA to 20
bytes stays in place: the cursor moves from 8 to 20 and reads are
unchanged. -/
theorem c3_in_place_extension_witness :
    arena_realloc sampleA (some ⟨0, 0⟩) 8 20 =
      (⟨sampleA.regions.set 0 { sampleR with size := sampleR.size + (20 - 8) },
        sampleA.endIdx⟩, some ⟨0, 0⟩) ∧
    readByte (arena_realloc sampleA (some ⟨0, 0⟩) 8 20).1 ⟨0, 5⟩ = readByte sampleA ⟨0, 5⟩ :=
  ⟨(c3_in_place_extension sampleA ⟨0, 0⟩ sampleR 8 20 rfl (by decide) (by decide)
      (by decide) (by decide) (by decide) (by decide)).1,
    (c3_in_place_extension sampleA ⟨0, 0⟩ sampleR 8 20 rfl (by decide) (by decide)
      (by decide) (by decide) (by decide) (by decide)).2 ⟨0, 5⟩⟩

/-- C4 (amended): along every operation sequence whose requested sizes
stay below 2^31 — so the uint32 product size * REGION_CAPACITY_MULT
cannot wrap — every region of every reachable arena state satisfies
size ≤ capacity. -/
theorem c4_size_le_capacity (a : Arena) (h : ReachableB a) :
    ∀ r ∈ a.regions, r.size ≤ r.capacity := by
  have hwf : ArenaWF a := by
    induction h with
    | init => intro x hx; simp [emptyArena] at hx
    | alloc s hs _ ih => exact arena_alloc_WF _ s hs ih
    | realloc p old nsz hn _ ih => exact arena_realloc_WF _ p old nsz hn ih
    | reset _ ih => exact arena_reset_WF _ ih
    | free _ _ => intro x hx; simp [arena_free] at hx
  exact fun r hr => (hwf r hr).1

/-- Witness for C4: the region of sampleA, reached by one allocation of 8
bytes, has size 8 ≤ capacity 512. -/
theorem c4_size_le_capacity_witness : sampleR.size ≤ sampleR.capacity :=
  c4_size_le_capacity (arena_alloc emptyArena 8).1
    (ReachableB.alloc 8 (by decide) ReachableB.init) sampleR (List.mem_singleton.mpr rfl)

/-- C5 counterexample: with unbounded sizes the claim fails.  After a 1
byte allocation holding the caller's byte 7, an allocation of 2^31 + 1
bytes returns the live span at (1, 0); an allocation of 2^31 - 1 bytes
then wraps region 1's uint32 cursor to 0, and the fallback of a realloc
acting on the unrelated 1 byte span at (0, 0) allocates at (1, 0) again:
its memcpy overwrites byte 0 of the still-live 2^31 + 1 byte allocation,
changing it from 0 to 7 with no arena_reset or arena_free in between. -/
theorem c5_counterexample :
    (arena_alloc wrapA1w (2 ^ 31 + 1)).2 = some ⟨1, 0⟩ ∧
    readByte wrapA3 ⟨1, 0⟩ = 0 ∧
    wrapA4.2 = some ⟨1, 0⟩ ∧
    readByte wrapA4.1 ⟨1, 0⟩ = 7 := by
  refine ⟨?_, ?_, ?_, ?_⟩ <;> decide

/-- C5 (amended): on a consistent arena (every region size ≤ capacity <
2^32), for every sequence of arena_alloc and arena_realloc calls whose
requested sizes stay below 2^31 — so no uint32 cursor or capacity ever
wraps — no byte below a region's cursor is ever modified: every live
allocation, in particular every one other than a span a realloc acts on,
keeps its bytes across the whole sequence. -/
theorem c5_sequence_frame : ∀ (ops : List Op) (a : Arena), ArenaWF a →
    (∀ op ∈ ops, opBound op) →
    ∀ (j : Nat) (r : Region) (i : Nat), a.regions[j]? = some r → i < r.size →
    readByte (applyOps a ops) ⟨j, i⟩ = readByte a ⟨j, i⟩ := by
  intro ops
  induction ops with
  | nil =>
    intro a _ _ j r i _ _
    rfl
  | cons op rest ih =>
    intro a hwf hb j r i hj hi
    have hbop := hb op (List.mem_cons_self op rest)
    obtain ⟨r2, hj2, hs2⟩ := applyOp_get_mono a op hwf hbop j r hj
    have hrest := ih (applyOp a op) (applyOp_WF a op hwf hbop)
      (fun o ho => hb o (List.mem_cons_of_mem op ho)) j r2 i hj2 (lt_of_lt_of_le hi hs2)
    show readByte (applyOps (applyOp a op) rest) ⟨j, i⟩ = readByte a ⟨j, i⟩
    rw [hrest]
    exact applyOp_frame a op j r i hj hi

/-- Witness for C5: running the two bounded operations alloc 4 and a
NULL-pointer realloc of 16 bytes on sampleA leaves byte 3 of the live 8
byte allocation unchanged. -/
theorem c5_sequence_frame_witness :
    readByte (applyOps sampleA [Op.alloc 4, Op.realloc none 0 16]) ⟨0, 3⟩ =
      readByte sampleA ⟨0, 3⟩ :=
  c5_sequence_frame [Op.alloc 4, Op.realloc none 0 16] sampleA
    (by
      intro r hr
      have h0 : sampleA.regions = [sampleR] := rfl
      rw [h0, List.mem_singleton] at hr
      rw [hr]
      exact ⟨by decide, by decide⟩)
    (by
      intro op hop
      rcases List.mem_cons.mp hop with h | h
      · rw [h]
        show (4 : Nat) < 2 ^ 31
        decide
      · rw [List.mem_singleton] at h
        rw [h]
        show (16 : Nat) < 2 ^ 31
        decide)
    0 sampleR 3 rfl (by decide)

/-- C6 (amended): on a non-empty, consistent chain whose end cache points
at the last region, a request s < 2^31 that exceeds every region's
remaining capacity appends exactly one region at the tail, of capacity
max(s * REGION_CAPACITY_MULT, REGION_DEFAULT_SIZE) — hence at least
s * REGION_CAPACITY_MULT — and the end cache moves to the new region. -/
theorem c6_chain_growth (a : Arena) (s : Nat) (hne : a.regions ≠ [])
    (hend : a.endIdx = some (a.regions.length - 1)) (hwf : ArenaWF a) (hs : s < 2 ^ 31)
    (hfull : ∀ r ∈ a.regions, r.capacity - r.size < s) :
    (arena_alloc a s).1.regions =
      a.regions ++
        [{ region_make ((s * REGION_CAPACITY_MULT) % U32) with size := s % U32 }] ∧
    (arena_alloc a s).1.regions.length = a.regions.length + 1 ∧
    ((arena_alloc a s).1.regions[a.regions.length]?).map Region.capacity =
      some (max (s * REGION_CAPACITY_MULT) REGION_DEFAULT_SIZE) ∧
    s * REGION_CAPACITY_MULT ≤ max (s * REGION_CAPACITY_MULT) REGION_DEFAULT_SIZE ∧
    ((arena_alloc a s).1.regions[a.regions.length]?).map Region.size = some s ∧
    (arena_alloc a s).1.endIdx = some a.regions.length ∧
    (arena_alloc a s).2 = some ⟨a.regions.length, 0⟩ := by
  have hU : U32 = 4294967296 := U32_val
  have hM : REGION_CAPACITY_MULT = 2 := rfl
  have hms : s % U32 = s := Nat.mod_eq_of_lt (by omega)
  have h2s : (s * REGION_CAPACITY_MULT) % U32 = s * REGION_CAPACITY_MULT := by
    rw [hM]
    exact Nat.mod_eq_of_lt (by omega)
  have hnofit : ∀ r ∈ a.regions, u32sub r.capacity r.size < s % U32 := by
    intro r hrm
    obtain ⟨h1, h2⟩ := hwf r hrm
    rw [u32sub_exact h2 h1, hms]
    exact hfull r hrm
  have heq0 := rar_nofit_all (s % U32) a.regions hne hnofit
  have hreg : ({ region_make ((s % U32 * REGION_CAPACITY_MULT) % U32) with
      size := s % U32 % U32 } : Region) =
      { region_make ((s * REGION_CAPACITY_MULT) % U32) with size := s % U32 } := by
    simp only [hms]
  have heq : region_alloc_rec a.regions (s % U32) =
      some (a.regions ++
        [{ region_make ((s * REGION_CAPACITY_MULT) % U32) with size := s % U32 }],
        a.regions.length, 0) := by
    rw [heq0, hreg]
  rw [arena_alloc_of_cons a s hne _ _ _ heq]
  have hpos : 0 < a.regions.length := List.length_pos.mpr hne
  have hlen : (a.regions ++
      [{ region_make ((s * REGION_CAPACITY_MULT) % U32) with size := s % U32 }]).length =
      a.regions.length + 1 := by simp
  have hget : (a.regions ++
      [{ region_make ((s * REGION_CAPACITY_MULT) % U32) with
          size := s % U32 }])[a.regions.length]? =
      some { region_make ((s * REGION_CAPACITY_MULT) % U32) with size := s % U32 } :=
    List.getElem?_concat_length _ _
  refine ⟨rfl, hlen, ?_, Nat.le_max_left _ _, ?_, ?_, rfl⟩
  · rw [hget]
    show some (max ((s * REGION_CAPACITY_MULT) % U32 % U32) REGION_DEFAULT_SIZE) = _
    rw [Nat.mod_mod_of_dvd _ (dvd_refl U32), h2s]
  · rw [hget]
    show some (s % U32) = some s
    rw [hms]
  · show endAdvance a.endIdx _ = some a.regions.length
    rw [hend, hlen]
    simp only [endAdvance]
    rw [if_pos (by omega)]
    congr 1
    omega

/-- Witness for C6: sampleA has one region with 504 bytes of headroom;
allocating 600 appends one region of capacity max(1200, 512) = 1200 and
the end cache moves to index 1. -/
theorem c6_chain_growth_witness :
    ((arena_alloc sampleA 600).1.regions[1]?).map Region.capacity =
      some (max (600 * REGION_CAPACITY_MULT) REGION_DEFAULT_SIZE) ∧
    (arena_alloc sampleA 600).1.endIdx = some 1 ∧
    (arena_alloc sampleA 600).2 = some ⟨1, 0⟩ := by
  have hwf : ArenaWF sampleA := by
    intro r hr
    have h0 : sampleA.regions = [sampleR] := rfl
    rw [h0, List.mem_singleton] at hr
    rw [hr]
    exact ⟨by decide, by decide⟩
  have hfull : ∀ r ∈ sampleA.regions, r.capacity - r.size < 600 := by
    intro r hr
    have h0 : sampleA.regions = [sampleR] := rfl
    rw [h0, List.mem_singleton] at hr
    rw [hr]
    decide
  obtain ⟨_, _, h3, _, _, h6, h7⟩ := c6_chain_growth sampleA 600 (List.cons_ne_nil _ _)
    rfl hwf (by decide) hfull
  exact ⟨h3, h6, h7⟩

/-- C7: in every arena state reachable by any sequence of arena_alloc,
arena_realloc, arena_reset and arena_free, the end cache is NULL exactly
when the chain is empty, and otherwise indexes the last region of the
chain headed by beg. -/
theorem c7_end_tracks_tail (a : Arena) (h : Reachable a) :
    (a.regions = [] → a.endIdx = none) ∧
    (a.regions ≠ [] → a.endIdx = some (a.regions.length - 1)) := by
  induction h with
  | init => exact ⟨fun _ => rfl, fun hh => absurd rfl hh⟩
  | alloc s _ ih => exact arena_alloc_EndInv _ s ih
  | realloc p old nsz _ ih => exact arena_realloc_EndInv _ p old nsz ih
  | reset _ ih => exact arena_reset_EndInv _ ih
  | free _ _ => exact ⟨fun _ => rfl, fun hh => absurd rfl hh⟩

/-- Witness for C7: after one allocation on a fresh arena the end cache is
index 0, the last region of the one-element chain. -/
theorem c7_end_tracks_tail_witness :
    (arena_alloc emptyArena 8).1.endIdx =
      some ((arena_alloc emptyArena 8).1.regions.length - 1) :=
  (c7_end_tracks_tail _ (Reachable.alloc 8 Reachable.init)).2 (List.cons_ne_nil _ _)

/-- C8: arena_reset is idempotent — resetting twice equals resetting once
— and one reset zeroes every region's size and its stored bytes while
keeping the chain, each capacity and the end cache unchanged. -/
theorem c8_reset_idempotent (a : Arena) :
    arena_reset (arena_reset a) = arena_reset a ∧
    (arena_reset a).regions.length = a.regions.length ∧
    (∀ j : Nat, ((arena_reset a).regions[j]?).map Region.capacity =
      (a.regions[j]?).map Region.capacity) ∧
    (∀ j : Nat, ((arena_reset a).regions[j]?).map Region.size =
      (a.regions[j]?).map (fun _ => 0)) ∧
    (∀ (j : Nat) (r : Region), (arena_reset a).regions[j]? = some r →
      ∀ o : Nat, o < r.capacity → r.bytes o = 0) ∧
    (arena_reset a).endIdx = a.endIdx := by
  refine ⟨arena_reset_idem a,
    show (a.regions.map resetRegion).length = a.regions.length from List.length_map _ _,
    ?_, ?_, ?_, rfl⟩
  · intro j
    show ((a.regions.map resetRegion)[j]?).map Region.capacity = _
    rw [List.getElem?_map]
    cases a.regions[j]? <;> rfl
  · intro j
    show ((a.regions.map resetRegion)[j]?).map Region.size = _
    rw [List.getElem?_map]
    cases a.regions[j]? <;> rfl
  · intro j r hj o ho
    have hj2 : (a.regions.map resetRegion)[j]? = some r := hj
    rw [List.getElem?_map] at hj2
    cases hy : a.regions[j]? with
    | none => rw [hy] at hj2; cases hj2
    | some y =>
      rw [hy] at hj2
      simp only [Option.map_some'] at hj2
      have hr : r = resetRegion y := (Option.some.inj hj2).symm
      subst hr
      have ho2 : o < y.capacity := ho
      show (if o < y.capacity then 0 else y.bytes o) = 0
      rw [if_pos ho2]

/-- Witness for C8: resetting sampleA twice equals resetting it once, the
region's size becomes 0 and byte 5 of its storage reads 0. -/
theorem c8_reset_idempotent_witness :
    arena_reset (arena_reset sampleA) = arena_reset sampleA ∧
    ((arena_reset sampleA).regions[0]?).map Region.size = some 0 ∧
    (resetRegion sampleR).bytes 5 = 0 := by
  obtain ⟨h1, _, _, h4, h5, _⟩ := c8_reset_idempotent sampleA
  refine ⟨h1, ?_, ?_⟩
  · rw [h4 0]
    rfl
  · exact h5 0 (resetRegion sampleR) rfl 5 (by decide)

/-- C9: arena_free leaves the handle with an empty chain and a NULL end,
and an allocation on the freed handle is literally an allocation on the
empty arena: it creates one first region, returns its start, and points
both beg (the one-element chain) and end at it. -/
theorem c9_free_then_empty (a : Arena) (s : Nat) :
    (arena_free a).regions = [] ∧
    (arena_free a).endIdx = none ∧
    arena_alloc (arena_free a) s = arena_alloc emptyArena s ∧
    (arena_alloc (arena_free a) s).1.regions.length = 1 ∧
    (arena_alloc (arena_free a) s).1.endIdx = some 0 ∧
    (arena_alloc (arena_free a) s).2 = some ⟨0, 0⟩ := by
  have h := arena_alloc_of_nil (arena_free a) s rfl
  refine ⟨rfl, rfl, rfl, ?_, ?_, ?_⟩
  · rw [h]
    rfl
  · rw [h]
  · rw [h]

/-- C10: a non-null pointer whose span is not contained in the used range
of any region still reallocates without a distinguishable error: the
result is a fresh allocation of new_size bytes followed by a memcpy of
old_size bytes read from the foreign span, and the fresh pointer is
returned.  The disjointness hypothesis on the fresh span confines the
copied-contents statement to inputs where the C memcpy has defined
behaviour; on overlapping ranges memcpy is undefined and nothing is
claimed.  Under it the copy also leaves the source span itself
unchanged. -/
theorem c10_foreign_pointer_fallback (a : Arena) (p q : Ptr) (r : Region) (old nsz : Nat)
    (hr : a.regions[p.rIdx]? = some r) (hout : r.size < p.off + old)
    (hold : old < U32) (hn : nsz < U32)
    (hq : (arena_alloc a nsz).2 = some q)
    (hdisj : q.rIdx ≠ p.rIdx ∨ q.off + old ≤ p.off ∨ p.off + old ≤ q.off) :
    arena_realloc a (some p) old nsz = (memcpyA (arena_alloc a nsz).1 q p old, some q) ∧
    (arena_realloc a (some p) old nsz).2 = some q ∧
    (∀ i : Nat, i < old →
      readByte (arena_realloc a (some p) old nsz).1 ⟨q.rIdx, q.off + i⟩ =
        readByte a ⟨p.rIdx, p.off + i⟩) ∧
    ∀ i : Nat, i < old →
      readByte (arena_realloc a (some p) old nsz).1 ⟨p.rIdx, p.off + i⟩ =
        readByte a ⟨p.rIdx, p.off + i⟩ := by
  have holdm : old % U32 = old := Nat.mod_eq_of_lt hold
  have hnm : nsz % U32 = nsz := Nat.mod_eq_of_lt hn
  have hnc : ¬ (p.off + old % U32 ≤ r.size) := by
    rw [holdm]
    omega
  have heqn := arena_realloc_not_contained a p r old nsz hr hnc
  rw [holdm, hnm] at heqn
  have hpair : arena_alloc a nsz = ((arena_alloc a nsz).1, some q) := by
    rw [← hq]
  have hform : arena_realloc a (some p) old nsz =
      (memcpyA (arena_alloc a nsz).1 q p old, some q) := by
    rw [heqn, reallocFallback, hpair]
  refine ⟨hform, by rw [hform], ?_, ?_⟩
  · intro i hi
    rw [hform]
    show readByte (memcpyA (arena_alloc a nsz).1 q p old) ⟨q.rIdx, q.off + i⟩ = _
    obtain ⟨rq, hrq⟩ := arena_alloc_ptr_valid a nsz q hq
    rw [memcpyA_readByte_dst (arena_alloc a nsz).1 q p old i hi rq hrq]
    exact arena_alloc_readByte a nsz ⟨p.rIdx, p.off + i⟩
  · intro i hi
    rw [hform]
    show readByte (memcpyA (arena_alloc a nsz).1 q p old) ⟨p.rIdx, p.off + i⟩ = _
    have hfr : p.rIdx ≠ q.rIdx ∨ p.off + i < q.off ∨ q.off + old ≤ p.off + i := by
      rcases hdisj with h | h | h
      · exact Or.inl (Ne.symm h)
      · exact Or.inr (Or.inr (by omega))
      · exact Or.inr (Or.inl (by omega))
    rw [memcpyA_readByte_frame (arena_alloc a nsz).1 q p old ⟨p.rIdx, p.off + i⟩ hfr]
    exact arena_alloc_readByte a nsz ⟨p.rIdx, p.off + i⟩

/-- Witness for C10: the span of 6 bytes at offset 100 of sampleA's
region runs past the cursor 8, so it is foreign; realloc to 4 bytes
returns the fresh span at offset 8, which is disjoint from the source
span [100, 106), and copies its bytes. -/
theorem c10_foreign_pointer_fallback_witness :
    (arena_realloc sampleA (some ⟨0, 100⟩) 6 4).2 = some ⟨0, 8⟩ ∧
    readByte (arena_realloc sampleA (some ⟨0, 100⟩) 6 4).1 ⟨0, 8 + 2⟩ =
      readByte sampleA ⟨0, 100 + 2⟩ ∧
    readByte (arena_realloc sampleA (some ⟨0, 100⟩) 6 4).1 ⟨0, 100 + 2⟩ =
      readByte sampleA ⟨0, 100 + 2⟩ := by
  obtain ⟨h1, h2, h3, h4⟩ := c10_foreign_pointer_fallback sampleA ⟨0, 100⟩ ⟨0, 8⟩ sampleR
    6 4 rfl (by decide) (by decide) (by decide) (by decide) (Or.inr (Or.inl (by decide)))
  exact ⟨h2, h3 2 (by decide), h4 2 (by decide)⟩

/-- Witness for C9: allocation after freeing sampleA coincides with
allocation on the empty arena and returns the start of region 0. -/
theorem c9_free_then_empty_witness :
    arena_alloc (arena_free sampleA) 7 = arena_alloc emptyArena 7 ∧
    (arena_alloc (arena_free sampleA) 7).2 = some ⟨0, 0⟩ :=
  ⟨(c9_free_then_empty sampleA 7).2.2.1, (c9_free_then_empty sampleA 7).2.2.2.2.2⟩

end Prick
